import Mathlib

/-!
# Verification of the docuchango Code-Fence Integrity Engine and fix helpers

This development shallowly embeds the parts of the `docuchango` toolkit that
the specification's claims are about:

* the Code-Fence Integrity Engine (line tokenizer, fence state machine,
  formatting rule set, diagnostic synthesizer) — the `docuchango.validator`
  module itself ships outside this source tree (only its tests and callers are
  present), so the engine is modelled from the specification's contract;
* `ReadabilityScorer.extract_paragraphs` from `docuchango/readability.py`;
* `normalize_empty_values` and `ensure_required_fields` from
  `docuchango/fixes/whitespace.py`.

Machine-level details: Python strings become Lean `String`, 1-based line
numbers become `Nat`, Python dicts become insertion-ordered association lists.
-/

namespace Docuchango

/-! ## Character and string primitives (Python `str.strip`, `startswith`) -/

/-- Whitespace test matching the characters Python's `str.strip` removes from
documentation lines (space, tab, carriage return, newline, form feed,
vertical tab). -/
def isWS (c : Char) : Bool :=
  c = ' ' || c = '\t' || c = '\r' || c = '\n' || c = '\x0c' || c = '\x0b'

/-- Strip whitespace from both ends of a character list. -/
def stripChars (cs : List Char) : List Char :=
  ((cs.dropWhile isWS).reverse.dropWhile isWS).reverse

/-- Python `line.strip()`. -/
def strip (s : String) : String := ⟨stripChars s.data⟩

/-- Python `s.startswith(p)`. -/
def startsWithStr (s p : String) : Bool := p.data.isPrefixOf s.data

/-- Substring containment (`p in s` in Python terms). -/
def strContains (s p : String) : Bool := decide (List.IsInfix p.data s.data)

/-- Python `text.split("\n")`: split into newline-delimited segments, keeping
empty segments; the empty text yields one empty line. -/
def splitLinesAux : List Char → List Char → List String
  | [], acc => [⟨acc.reverse⟩]
  | c :: cs, acc =>
    if c = '\n' then ⟨acc.reverse⟩ :: splitLinesAux cs []
    else splitLinesAux cs (c :: acc)

/-- Split document text into its 1-indexed line sequence (Line Tokenizer,
spec §4.1: one `Line` per newline-delimited segment, no line dropped). -/
def splitLines (s : String) : List String := splitLinesAux s.data []

/-! ## Fence marker classification (Line Tokenizer, spec §3)

Modelled from the spec: a fence marker is a line whose stripped content
begins with a triple-backtick delimiter; its `indentation` is the leading
whitespace consumed and its `language_tag` is the text following the
delimiter (empty allowed).  The `docuchango.validator` sources are not in
this tree, so these definitions follow spec §3 (`FenceMarker`). -/

/-- Is this line a candidate fence marker? (stripped text begins with ```` ``` ````). -/
def isFence (line : String) : Bool := startsWithStr (strip line) "```"

/-- Leading-whitespace count of a line (the marker's `indentation`). -/
def indentationOf (line : String) : Nat := (line.data.takeWhile isWS).length

/-- The text following the backtick delimiter on a fence line (the marker's
`language_tag`), stripped; empty for a bare marker. -/
def tagOf (line : String) : String :=
  ⟨stripChars ((stripChars line.data).dropWhile (· = '`'))⟩

/-- Parsed fence marker: originating line index, indentation, language tag
(spec §3 `FenceMarker`; the line index is retained so a later diagnostic can
reference "line N" precisely). -/
structure FenceMarker where
  lineIndex : Nat
  indentation : Nat
  languageTag : String
deriving Repr, DecidableEq

/-- Classify a line at a given 1-based index as a marker. -/
def markerOf (idx : Nat) (line : String) : FenceMarker :=
  ⟨idx, indentationOf line, tagOf line⟩

/-! ## Fence State Machine (spec §4.2)

Modelled from the spec: the `docuchango.validator` module is missing from
this source tree, so the state machine is transcribed from spec §4.2's
contract: a fence marker seen while `Outside` opens a block; a bare marker
with matching indentation seen while `Inside` closes it; any other marker
seen while `Inside` is an ambiguous marker and leaves the block open; end of
document while `Inside` yields an unclosed-block event. -/

/-- `Outside`, or `Inside open_marker` (spec §3 `FenceState`): at most one
block is open at a time by construction. -/
inductive FenceState where
  | Outside
  | Inside (openMarker : FenceMarker)
deriving Repr, DecidableEq

/-- Raw state-machine events (spec §4.2). -/
inductive SMEvent where
  | opened (line : Nat) (tag : String)
  | closed (line : Nat)
  | ambiguous (line : Nat) (openLine : Nat)
  | unclosed (openLine : Nat)
deriving Repr, DecidableEq

/-- The line an event is anchored at. -/
def SMEvent.anchor : SMEvent → Nat
  | .opened l _ => l
  | .closed l => l
  | .ambiguous l _ => l
  | .unclosed l => l

/-- One state-machine transition (spec §4.2). -/
def stepState (st : FenceState) (idx : Nat) (line : String) : FenceState :=
  if isFence line then
    match st with
    | .Outside => .Inside (markerOf idx line)
    | .Inside om =>
      if indentationOf line = om.indentation ∧ tagOf line = "" then .Outside
      else .Inside om
  else st

/-- The events emitted while consuming one line (spec §4.2). -/
def stepEvents (st : FenceState) (idx : Nat) (line : String) : List SMEvent :=
  if isFence line then
    match st with
    | .Outside => [.opened idx (tagOf line)]
    | .Inside om =>
      if indentationOf line = om.indentation ∧ tagOf line = "" then [.closed idx]
      else [.ambiguous idx om.lineIndex]
  else []

/-- Run the state machine over a line sequence starting at index `i`,
returning the final state and the event stream. -/
def runSM : FenceState → Nat → List String → FenceState × List SMEvent
  | st, _, [] => (st, [])
  | st, i, l :: ls =>
    let r := runSM (stepState st i l) (i + 1) ls
    (r.1, stepEvents st i l ++ r.2)

/-- Full single-document event stream: run from `Outside` at line 1 and
append the end-of-document unclosed-block event when a block is still open
(spec §4.2 last bullet). -/
def smEvents (lines : List String) : List SMEvent :=
  match (runSM .Outside 1 lines).1 with
  | .Inside m => (runSM .Outside 1 lines).2 ++ [.unclosed m.lineIndex]
  | .Outside => (runSM .Outside 1 lines).2

/-! ## Formatting Rule Set (spec §4.3)

Modelled from the spec: independent of fence-matching state, the rule set
classifies fence lines by simple alternation (opener, closer, opener, …) and
checks: language tag non-empty on every opening marker; a blank line
immediately before an opening marker and immediately after a closing marker,
unless the marker is the first/last line of the document. -/

/-- A formatting finding (spec §4.3 / §7 Formatting taxonomy). -/
inductive FmtFinding where
  | missingLanguage (line : Nat)
  | missingBlankBefore (line : Nat)
  | missingBlankAfter (line : Nat)
deriving Repr, DecidableEq

/-- The line a formatting finding is anchored at. -/
def FmtFinding.anchor : FmtFinding → Nat
  | .missingLanguage l => l
  | .missingBlankBefore l => l
  | .missingBlankAfter l => l

/-- Blank-line-before check at an opening marker: the previous line (when
the marker is not the first line) must be blank. -/
def blankBeforeFindings (prev : Option String) (i : Nat) : List FmtFinding :=
  match prev with
  | none => []
  | some p => if strip p = "" then [] else [.missingBlankBefore i]

/-- Blank-line-after check at a closing marker: the next line (when the
marker is not the last line) must be blank. -/
def blankAfterFindings (ls : List String) (i : Nat) : List FmtFinding :=
  match ls with
  | [] => []
  | nxt :: _ => if strip nxt = "" then [] else [.missingBlankAfter i]

/-- One pass of the Formatting Rule Set.  `inCode` is the alternation toggle
(`false` ⇒ the next fence line is an opening marker), `prev` the previous
line (`none` at the document start). -/
def fmtRun (inCode : Bool) (prev : Option String) (i : Nat) :
    List String → List FmtFinding
  | [] => []
  | l :: ls =>
    if isFence l then
      if inCode then
        -- closing marker: a blank line must immediately follow (unless last line)
        blankAfterFindings ls i ++ fmtRun false (some l) (i + 1) ls
      else
        -- opening marker: language tag non-empty, blank line immediately before
        (if tagOf l = "" then [.missingLanguage i] else []) ++
        blankBeforeFindings prev i ++ fmtRun true (some l) (i + 1) ls
    else fmtRun inCode (some l) (i + 1) ls

theorem mem_blankBeforeFindings (prev : Option String) (i : Nat)
    (f : FmtFinding) (hf : f ∈ blankBeforeFindings prev i) :
    f = .missingBlankBefore i := by
  cases prev with
  | none => simp [blankBeforeFindings] at hf
  | some p =>
    simp only [blankBeforeFindings] at hf
    split at hf
    · simp at hf
    · simp only [List.mem_singleton] at hf; exact hf

theorem mem_blankAfterFindings (ls : List String) (i : Nat)
    (f : FmtFinding) (hf : f ∈ blankAfterFindings ls i) :
    f = .missingBlankAfter i := by
  cases ls with
  | nil => simp [blankAfterFindings] at hf
  | cons nxt rest =>
    simp only [blankAfterFindings] at hf
    split at hf
    · simp at hf
    · simp only [List.mem_singleton] at hf; exact hf

/-- All formatting findings of a document. -/
def fmtFindings (lines : List String) : List FmtFinding :=
  fmtRun false none 1 lines

/-! ## Diagnostics and the Diagnostic Synthesizer (spec §3, §4.4)

Modelled from the spec: diagnostics carry an explicit kind tag (spec §9:
"tagged classification", suppression by explicit root-cause linkage rather
than string matching), a severity (§7 taxonomy: Structural vs Formatting),
and an optional `root_cause_line` populated only for cascade-explanation
diagnostics. -/

/-- Diagnostic severity (spec §7): structural or formatting. -/
inductive Severity where
  | structural
  | formatting
deriving Repr, DecidableEq

/-- Kind tag of a diagnostic.  `closingFenceExtraText` is the generic,
contextless restatement of an ambiguous-marker event that §4.4 step 4
suppresses in favour of the cascade explanation. -/
inductive DiagKind where
  | unclosedBlock
  | cascadeExplanation
  | closingFenceExtraText
  | missingLanguage
  | missingBlankBefore
  | missingBlankAfter
deriving Repr, DecidableEq

/-- A diagnostic (spec §3): line number, severity, kind, human-readable
message, and optional root-cause line. -/
structure Diagnostic where
  line_number : Nat
  severity : Severity
  kind : DiagKind
  message : String
  root_cause_line : Option Nat
deriving Repr, DecidableEq

/-- The unclosed-block diagnostic (spec §4.4 step 1): anchored at the opening
line, no root cause — this event IS the root cause. -/
def unclosedDiag (openLine : Nat) : Diagnostic :=
  ⟨openLine, .structural, .unclosedBlock,
    "Unclosed code block starting at line " ++ toString openLine, none⟩

/-- The cascade-explanation diagnostic (spec §4.4 step 2): anchored at the
ambiguous marker's line, root cause at the original opening line. -/
def cascadeDiag (markerLine openLine : Nat) : Diagnostic :=
  ⟨markerLine, .structural, .cascadeExplanation,
    "Line " ++ toString markerLine ++
      " appears to be a new opening fence, but the code block starting at line " ++
      toString openLine ++
      " was never closed, so this line is interpreted as part of the unclosed block",
    some openLine⟩

/-- Structural diagnostics synthesized from one state-machine event
(spec §4.4 steps 1–2; opened/closed events produce no diagnostic). -/
def eventDiags : SMEvent → List Diagnostic
  | .opened _ _ => []
  | .closed _ => []
  | .ambiguous m l => [cascadeDiag m l]
  | .unclosed l => [unclosedDiag l]

/-- All structural diagnostics of a document, in event order. -/
def structDiags (lines : List String) : List Diagnostic :=
  (smEvents lines).flatMap eventDiags

/-- A formatting finding rendered as an independent low-severity diagnostic
(spec §4.4 step 3: no root-cause linkage). -/
def fmtDiag : FmtFinding → Diagnostic
  | .missingLanguage l =>
    ⟨l, .formatting, .missingLanguage,
      "Missing language on opening fence, line " ++ toString l, none⟩
  | .missingBlankBefore l =>
    ⟨l, .formatting, .missingBlankBefore,
      "Missing blank line before opening fence, line " ++ toString l, none⟩
  | .missingBlankAfter l =>
    ⟨l, .formatting, .missingBlankAfter,
      "Missing blank line after closing fence, line " ++ toString l, none⟩

/-- All formatting diagnostics of a document. -/
def fmtDiags (lines : List String) : List Diagnostic :=
  (fmtFindings lines).map fmtDiag

/-- Lines that already received a cascade-explanation diagnostic. -/
def explainedLines (ds : List Diagnostic) : List Nat :=
  (ds.filter (fun d => d.kind = DiagKind.cascadeExplanation)).map (·.line_number)

/-- Spec §4.4 step 4: suppress a generic, contextless restatement of an
ambiguous-marker event once a cascade explanation exists for the same line —
a set-membership check on the explicit kind tag, not string matching. -/
def suppress (ds : List Diagnostic) : List Diagnostic :=
  ds.filter (fun d =>
    !(d.kind = DiagKind.closingFenceExtraText ∧
      d.line_number ∈ explainedLines ds : Bool))

/-- Stable insertion by line number: `d` is placed before the first existing
diagnostic whose line number is not smaller. -/
def insertByLine (d : Diagnostic) : List Diagnostic → List Diagnostic
  | [] => [d]
  | e :: es =>
    if e.line_number < d.line_number then e :: insertByLine d es
    else d :: e :: es

/-- Stable sort by line number (spec §4.4 step 5: ties broken by insertion
order). -/
def sortByLine : List Diagnostic → List Diagnostic
  | [] => []
  | d :: ds => insertByLine d (sortByLine ds)

/-- The diagnostic list in insertion order (structural before formatting),
after suppression — the input of the final sort. -/
def preScan (lines : List String) : List Diagnostic :=
  suppress (structDiags lines ++ fmtDiags lines)

/-- Scan one document's line sequence: synthesize, suppress, sort. -/
def scanLines (lines : List String) : List Diagnostic :=
  sortByLine (preScan lines)

/-- `scan(document_text) -> ScanResult` (spec §6): a pure function from
document text to the ordered diagnostic list. -/
def scan (text : String) : List Diagnostic :=
  scanLines (splitLines text)

/-! ## Lemmas about the fence state machine -/

theorem runSM_nil (st : FenceState) (i : Nat) : runSM st i [] = (st, []) := rfl

theorem runSM_cons (st : FenceState) (i : Nat) (l : String) (ls : List String) :
    runSM st i (l :: ls) =
      ((runSM (stepState st i l) (i + 1) ls).1,
        stepEvents st i l ++ (runSM (stepState st i l) (i + 1) ls).2) := rfl

/-- Decomposing a run over an appended line sequence. -/
theorem runSM_append (st : FenceState) (i : Nat) (xs ys : List String) :
    runSM st i (xs ++ ys) =
      ((runSM (runSM st i xs).1 (i + xs.length) ys).1,
        (runSM st i xs).2 ++ (runSM (runSM st i xs).1 (i + xs.length) ys).2) := by
  induction xs generalizing st i with
  | nil => simp [runSM_nil]
  | cons l ls ih =>
    simp only [List.cons_append, runSM_cons, ih (stepState st i l) (i + 1),
      List.length_cons, List.append_assoc]
    have harith : i + 1 + ls.length = i + (ls.length + 1) := by omega
    rw [harith]

/-- Events emitted while consuming one line are anchored at that line. -/
theorem stepEvents_anchor (st : FenceState) (i : Nat) (l : String) :
    ∀ e ∈ stepEvents st i l, e.anchor = i := by
  intro e he
  cases st with
  | Outside =>
    simp only [stepEvents] at he
    split at he
    · simp only [List.mem_singleton] at he; subst he; rfl
    · simp at he
  | Inside om =>
    simp only [stepEvents] at he
    split at he
    · split at he
      · simp only [List.mem_singleton] at he; subst he; rfl
      · simp only [List.mem_singleton] at he; subst he; rfl
    · simp at he

/-- No `unclosed` event is emitted while consuming one line. -/
theorem stepEvents_no_unclosed (st : FenceState) (i : Nat) (l : String) (n : Nat) :
    SMEvent.unclosed n ∉ stepEvents st i l := by
  intro he
  cases st with
  | Outside =>
    simp only [stepEvents] at he
    split at he
    · simp at he
    · simp at he
  | Inside om =>
    simp only [stepEvents] at he
    split at he
    · split at he <;> simp at he
    · simp at he

/-- Every event of a run is anchored inside the consumed index range. -/
theorem runSM_anchor_bounds (st : FenceState) (i : Nat) (ls : List String) :
    ∀ e ∈ (runSM st i ls).2, i ≤ e.anchor ∧ e.anchor < i + ls.length := by
  induction ls generalizing st i with
  | nil => simp [runSM_nil]
  | cons l ls ih =>
    intro e he
    rw [runSM_cons] at he
    simp only [List.mem_append] at he
    rcases he with he | he
    · have ha := stepEvents_anchor st i l e he
      simp only [List.length_cons, ha]
      omega
    · have := ih (stepState st i l) (i + 1) e he
      simp only [List.length_cons]
      omega

/-- A run never emits an `unclosed` event (it is appended only at end of
document by `smEvents`). -/
theorem runSM_no_unclosed (st : FenceState) (i : Nat) (ls : List String) (n : Nat) :
    SMEvent.unclosed n ∉ (runSM st i ls).2 := by
  induction ls generalizing st i with
  | nil => simp [runSM_nil]
  | cons l ls ih =>
    rw [runSM_cons]
    simp only [List.mem_append]
    rintro (he | he)
    · exact stepEvents_no_unclosed st i l n he
    · exact ih (stepState st i l) (i + 1) he

/-- If a run ends `Inside m`, the open marker either was already open at the
start or originates from a consumed line. -/
theorem runSM_inside_provenance (st : FenceState) (i : Nat) (ls : List String)
    (m : FenceMarker) (h : (runSM st i ls).1 = .Inside m) :
    st = .Inside m ∨ (i ≤ m.lineIndex ∧ m.lineIndex < i + ls.length) := by
  induction ls generalizing st i with
  | nil => rw [runSM_nil] at h; exact Or.inl h
  | cons l ls ih =>
    rw [runSM_cons] at h
    rcases ih (stepState st i l) (i + 1) h with h' | h'
    · cases st with
      | Outside =>
        simp only [stepState] at h'
        split at h'
        · right
          injection h' with hm
          subst hm
          simp only [markerOf, List.length_cons]
          omega
        · cases h'
      | Inside om =>
        simp only [stepState] at h'
        split at h'
        · split at h'
          · cases h'
          · left; exact h'
        · left; exact h'
    · right
      simp only [List.length_cons]
      omega

/-- Consuming fence-free lines changes nothing and emits nothing. -/
theorem runSM_nofence (st : FenceState) (i : Nat) (ls : List String)
    (h : ∀ l ∈ ls, isFence l = false) : runSM st i ls = (st, []) := by
  induction ls generalizing st i with
  | nil => exact runSM_nil st i
  | cons l ls ih =>
    have hl : isFence l = false := h l (List.mem_cons_self l ls)
    have hst : stepState st i l = st := by unfold stepState; simp [hl]
    have hev : stepEvents st i l = [] := by unfold stepEvents; simp [hl]
    rw [runSM_cons, hst, hev, ih st (i + 1) (fun x hx => h x (List.mem_cons_of_mem l hx))]
    rfl

/-- While `Inside m`, a line sequence without a bare marker matching `m`'s
indentation leaves the block open (spec §4.2: closers are always bare). -/
theorem runSM_stay_inside (m : FenceMarker) (i : Nat) (ls : List String)
    (h : ∀ l ∈ ls, isFence l = true →
      ¬(indentationOf l = m.indentation ∧ tagOf l = "")) :
    (runSM (.Inside m) i ls).1 = .Inside m := by
  induction ls generalizing i with
  | nil => rw [runSM_nil]
  | cons l ls ih =>
    have hst : stepState (.Inside m) i l = .Inside m := by
      unfold stepState
      by_cases hf : isFence l = true
      · simp only [hf, if_true]
        have := h l (List.mem_cons_self l ls) hf
        simp [this]
      · simp [hf]
    rw [runSM_cons, hst]
    exact ih (i + 1) (fun x hx => h x (List.mem_cons_of_mem l hx))

/-! ## Lemmas about the formatting rule set -/

/-- The `prev` argument after consuming a line sequence. -/
def lastO (prev : Option String) : List String → Option String
  | [] => prev
  | l :: ls => lastO (some l) ls

theorem fmtRun_nil (b : Bool) (prev : Option String) (i : Nat) :
    fmtRun b prev i [] = [] := rfl

/-- Every formatting finding is anchored inside the consumed index range. -/
theorem fmtRun_anchor_bounds (b : Bool) (prev : Option String) (i : Nat)
    (ls : List String) :
    ∀ f ∈ fmtRun b prev i ls, i ≤ f.anchor ∧ f.anchor < i + ls.length := by
  induction ls generalizing b prev i with
  | nil => simp [fmtRun_nil]
  | cons l ls ih =>
    intro f hf
    simp only [fmtRun] at hf
    have step : ∀ b' p', f ∈ fmtRun b' p' (i + 1) ls →
        i ≤ f.anchor ∧ f.anchor < i + (l :: ls).length := by
      intro b' p' hmem
      have := ih b' p' (i + 1) f hmem
      simp only [List.length_cons]
      omega
    split at hf
    · split at hf
      · rcases List.mem_append.mp hf with hf | hf
        · have hfa := mem_blankAfterFindings ls i f hf
          subst hfa
          simp only [FmtFinding.anchor, List.length_cons]
          omega
        · exact step _ _ hf
      · rcases List.mem_append.mp hf with hf | hf
        · rcases List.mem_append.mp hf with hf | hf
          · split at hf
            · simp only [List.mem_singleton] at hf
              subst hf
              simp only [FmtFinding.anchor, List.length_cons]
              omega
            · simp at hf
          · have hfb := mem_blankBeforeFindings prev i f hf
            subst hfb
            simp only [FmtFinding.anchor, List.length_cons]
            omega
        · exact step _ _ hf
    · exact step _ _ hf

/-- Fence-free lines produce no formatting findings and only advance `prev`. -/
theorem fmtRun_nofence_append (b : Bool) (prev : Option String) (i : Nat)
    (xs ys : List String) (h : ∀ l ∈ xs, isFence l = false) :
    fmtRun b prev i (xs ++ ys) = fmtRun b (lastO prev xs) (i + xs.length) ys := by
  induction xs generalizing prev i with
  | nil => simp [lastO]
  | cons l ls ih =>
    have hl : isFence l = false := h l (List.mem_cons_self l ls)
    simp only [List.cons_append, fmtRun, hl, Bool.false_eq_true, if_false,
      lastO, List.length_cons, List.append_eq]
    rw [ih (some l) (i + 1) (fun x hx => h x (List.mem_cons_of_mem l hx))]
    have harith : i + 1 + ls.length = i + (ls.length + 1) := by omega
    rw [harith]

/-! ## Lemmas about diagnostics and suppression -/

theorem eventDiags_mem (e : SMEvent) (d : Diagnostic) (hd : d ∈ eventDiags e) :
    d.line_number = e.anchor ∧ d.severity = .structural ∧
      d.kind ≠ .closingFenceExtraText := by
  cases e with
  | opened l t => simp [eventDiags] at hd
  | closed l => simp [eventDiags] at hd
  | ambiguous m l =>
    simp only [eventDiags, List.mem_singleton] at hd
    subst hd
    refine ⟨rfl, rfl, ?_⟩
    simp [cascadeDiag]
  | unclosed l =>
    simp only [eventDiags, List.mem_singleton] at hd
    subst hd
    refine ⟨rfl, rfl, ?_⟩
    simp [unclosedDiag]

theorem fmtDiag_facts (f : FmtFinding) :
    (fmtDiag f).line_number = f.anchor ∧ (fmtDiag f).severity = .formatting ∧
      (fmtDiag f).kind ≠ .closingFenceExtraText ∧
      (fmtDiag f).kind ≠ .cascadeExplanation ∧
      (fmtDiag f).kind ≠ .unclosedBlock := by
  cases f <;> simp [fmtDiag, FmtFinding.anchor]

/-- No diagnostic produced by the synthesizer is the generic extra-text
restatement, so the spec §4.4 step 4 suppression keeps everything. -/
theorem suppress_eq_self (ds : List Diagnostic)
    (h : ∀ d ∈ ds, d.kind ≠ .closingFenceExtraText) : suppress ds = ds := by
  unfold suppress
  rw [List.filter_eq_self]
  intro d hd
  have := h d hd
  simp [this]

theorem structDiags_kinds (lines : List String) :
    ∀ d ∈ structDiags lines, d.severity = .structural ∧
      d.kind ≠ .closingFenceExtraText := by
  intro d hd
  simp only [structDiags, List.mem_flatMap] at hd
  obtain ⟨e, _, hde⟩ := hd
  obtain ⟨_, h2, h3⟩ := eventDiags_mem e d hde
  exact ⟨h2, h3⟩

theorem fmtDiags_kinds (lines : List String) :
    ∀ d ∈ fmtDiags lines, d.severity = .formatting ∧
      d.kind ≠ .closingFenceExtraText ∧ d.kind ≠ .cascadeExplanation ∧
      d.kind ≠ .unclosedBlock := by
  intro d hd
  simp only [fmtDiags, List.mem_map] at hd
  obtain ⟨f, _, hdf⟩ := hd
  subst hdf
  obtain ⟨_, h2, h3, h4, h5⟩ := fmtDiag_facts f
  exact ⟨h2, h3, h4, h5⟩

/-- `preScan` is just the concatenation of structural and formatting
diagnostics: the suppression step finds nothing to suppress. -/
theorem preScan_eq (lines : List String) :
    preScan lines = structDiags lines ++ fmtDiags lines := by
  unfold preScan
  apply suppress_eq_self
  intro d hd
  rcases List.mem_append.mp hd with h | h
  · exact (structDiags_kinds lines d h).2
  · exact (fmtDiags_kinds lines d h).2.1

/-! ## Lemmas about the stable sort -/

theorem insertByLine_perm (d : Diagnostic) (l : List Diagnostic) :
    List.Perm (insertByLine d l) (d :: l) := by
  induction l with
  | nil => exact List.Perm.refl _
  | cons e es ih =>
    simp only [insertByLine]
    split
    · exact ((ih.cons e).trans (List.Perm.swap d e es))
    · exact List.Perm.refl _

theorem sortByLine_perm (l : List Diagnostic) :
    List.Perm (sortByLine l) l := by
  induction l with
  | nil => exact List.Perm.refl _
  | cons d ds ih =>
    exact (insertByLine_perm d (sortByLine ds)).trans (ih.cons d)

theorem mem_insertByLine (d x : Diagnostic) (l : List Diagnostic) :
    x ∈ insertByLine d l ↔ x = d ∨ x ∈ l :=
  ((insertByLine_perm d l).mem_iff).trans (List.mem_cons)

/-- Inserting preserves sortedness by line number. -/
theorem insertByLine_sorted (d : Diagnostic) (l : List Diagnostic)
    (h : List.Pairwise (fun a b => a.line_number ≤ b.line_number) l) :
    List.Pairwise (fun a b => a.line_number ≤ b.line_number)
      (insertByLine d l) := by
  induction l with
  | nil => simp [insertByLine]
  | cons e es ih =>
    rcases List.pairwise_cons.mp h with ⟨he, hes⟩
    simp only [insertByLine]
    split
    · rename_i hlt
      refine List.pairwise_cons.mpr ⟨?_, ih hes⟩
      intro x hx
      rcases (mem_insertByLine d x es).mp hx with hx | hx
      · subst hx; omega
      · exact he x hx
    · rename_i hge
      refine List.pairwise_cons.mpr ⟨?_, h⟩
      intro x hx
      rcases List.mem_cons.mp hx with hx | hx
      · subst hx; omega
      · have := he x hx; omega

theorem sortByLine_sorted (l : List Diagnostic) :
    List.Pairwise (fun a b => a.line_number ≤ b.line_number) (sortByLine l) := by
  induction l with
  | nil => simp [sortByLine]
  | cons d ds ih => exact insertByLine_sorted d (sortByLine ds) ih

theorem filter_line_cons_pos (k : Nat) (a : Diagnostic) (l : List Diagnostic)
    (h : a.line_number = k) :
    (a :: l).filter (fun x => decide (x.line_number = k)) =
      a :: l.filter (fun x => decide (x.line_number = k)) := by
  simp [List.filter_cons, h]

theorem filter_line_cons_neg (k : Nat) (a : Diagnostic) (l : List Diagnostic)
    (h : ¬a.line_number = k) :
    (a :: l).filter (fun x => decide (x.line_number = k)) =
      l.filter (fun x => decide (x.line_number = k)) := by
  simp [List.filter_cons, h]

/-- Stability: filtering one line class commutes with insertion. -/
theorem filter_insertByLine (k : Nat) (d : Diagnostic) (l : List Diagnostic) :
    (insertByLine d l).filter (fun x => decide (x.line_number = k)) =
      (d :: l).filter (fun x => decide (x.line_number = k)) := by
  induction l with
  | nil => rfl
  | cons e es ih =>
    simp only [insertByLine]
    split
    · rename_i hlt
      by_cases hdk : d.line_number = k
      · have hek : ¬e.line_number = k := by omega
        rw [filter_line_cons_neg k e _ hek, ih, filter_line_cons_pos k d _ hdk,
          filter_line_cons_pos k d _ hdk, filter_line_cons_neg k e _ hek]
      · rw [List.filter_cons, ih, filter_line_cons_neg k d _ hdk,
          filter_line_cons_neg k d _ hdk, List.filter_cons]
    · rfl

/-- Stability of the full sort: within one line class, the sorted list keeps
insertion order. -/
theorem filter_sortByLine (k : Nat) (l : List Diagnostic) :
    (sortByLine l).filter (fun x => decide (x.line_number = k)) =
      l.filter (fun x => decide (x.line_number = k)) := by
  induction l with
  | nil => rfl
  | cons d ds ih =>
    rw [sortByLine, filter_insertByLine k d (sortByLine ds)]
    simp only [List.filter_cons]
    rw [ih]

/-! ## End-of-document event stream lemmas -/

theorem smEvents_eq_outside (lines : List String)
    (h : (runSM .Outside 1 lines).1 = .Outside) :
    smEvents lines = (runSM .Outside 1 lines).2 := by
  unfold smEvents
  rw [h]

theorem smEvents_eq_inside (lines : List String) (m : FenceMarker)
    (h : (runSM .Outside 1 lines).1 = .Inside m) :
    smEvents lines = (runSM .Outside 1 lines).2 ++ [.unclosed m.lineIndex] := by
  unfold smEvents
  rw [h]

/-- Every event of a document's stream is anchored at a real line index. -/
theorem smEvents_anchor_bounds (lines : List String) :
    ∀ e ∈ smEvents lines, 1 ≤ e.anchor ∧ e.anchor < 1 + lines.length := by
  intro e he
  cases hfin : (runSM FenceState.Outside 1 lines).1 with
  | Outside =>
    rw [smEvents_eq_outside lines hfin] at he
    exact runSM_anchor_bounds _ _ _ e he
  | Inside m =>
    rw [smEvents_eq_inside lines m hfin] at he
    rcases List.mem_append.mp he with he | he
    · exact runSM_anchor_bounds _ _ _ e he
    · simp only [List.mem_singleton] at he
      subst he
      rcases runSM_inside_provenance _ _ _ _ hfin with h | h
      · cases h
      · exact ⟨h.1, h.2⟩

/-! ## Claim theorems for the Code-Fence Integrity Engine -/

/-- A tagged fence marker seen while inside an open block does not change
the state (spec §4.2: closers are always bare). -/
theorem stepState_inside_tagged (om : FenceMarker) (idx : Nat) (line : String)
    (hf : isFence line = true) (ht : ¬tagOf line = "") :
    stepState (.Inside om) idx line = .Inside om := by
  have hno : ¬(indentationOf line = om.indentation ∧ tagOf line = "") :=
    fun hc => ht hc.2
  unfold stepState
  simp [hf, hno]

/-- A tagged fence marker seen while inside an open block emits exactly the
ambiguous-marker event. -/
theorem stepEvents_inside_tagged (om : FenceMarker) (idx : Nat) (line : String)
    (hf : isFence line = true) (ht : ¬tagOf line = "") :
    stepEvents (.Inside om) idx line = [.ambiguous idx om.lineIndex] := by
  have hno : ¬(indentationOf line = om.indentation ∧ tagOf line = "") :=
    fun hc => ht hc.2
  unfold stepEvents
  simp [hf, hno]

/-- **C2.** Whenever the fence state machine is `Inside open_marker` and the
next line is a fence marker carrying a non-empty language tag, the state
after consuming that line is still `Inside open_marker`: the tagged marker
neither closes the open block nor opens a second one (the emitted event is
the ambiguous-marker event, not an `opened` event).  At most one block is
open at any point by construction of `FenceState` (`Outside` or a single
`Inside` marker). -/
theorem tagged_marker_keeps_block_open (om : FenceMarker) (idx : Nat)
    (line : String) (hf : isFence line = true) (ht : ¬tagOf line = "") :
    stepState (.Inside om) idx line = .Inside om ∧
      stepEvents (.Inside om) idx line = [.ambiguous idx om.lineIndex] := by
  have hno : ¬(indentationOf line = om.indentation ∧ tagOf line = "") :=
    fun hc => ht hc.2
  unfold stepState stepEvents
  simp [hf, hno]

theorem tagged_marker_keeps_block_open_witness :
    stepState (.Inside ⟨1, 0, "markdown"⟩) 2 "```text" =
        .Inside ⟨1, 0, "markdown"⟩ ∧
      stepEvents (.Inside ⟨1, 0, "markdown"⟩) 2 "```text" =
        [.ambiguous 2 1] :=
  tagged_marker_keeps_block_open ⟨1, 0, "markdown"⟩ 2 "```text"
    (by decide) (by decide)

/-- **C6.** `scan` is a pure, deterministic function of the document text:
two invocations on the same text yield identical results, with no hidden
state carried between invocations (the embedding threads all scan state
explicitly through `runSM` and `fmtRun`). -/
theorem scan_deterministic (t₁ t₂ : String) (h : t₁ = t₂) :
    scan t₁ = scan t₂ := by rw [h]

theorem scan_deterministic_witness :
    scan "a\n```markdown\nfoo" = scan "a\n```markdown\nfoo" :=
  scan_deterministic "a\n```markdown\nfoo" "a\n```markdown\nfoo" rfl

/-- **C5.** The diagnostic list returned by `scan` is sorted in
non-decreasing line-number order; within one line number the order is
insertion order (the stable sort preserves each line class), and the
insertion-order list puts all structural diagnostics of a line before all
formatting diagnostics of that line. -/
theorem scan_sorted_stable (text : String) :
    List.Pairwise (fun a b => a.line_number ≤ b.line_number) (scan text) ∧
      (∀ k, (scan text).filter (fun d => decide (d.line_number = k)) =
        (preScan (splitLines text)).filter (fun d => decide (d.line_number = k))) ∧
      (∀ k, ∃ xs ys,
        (preScan (splitLines text)).filter (fun d => decide (d.line_number = k)) =
            xs ++ ys ∧
          (∀ d ∈ xs, d.severity = .structural) ∧
          (∀ d ∈ ys, d.severity = .formatting)) := by
  refine ⟨sortByLine_sorted _, fun k => filter_sortByLine k _, fun k => ?_⟩
  rw [preScan_eq, List.filter_append]
  refine ⟨_, _, rfl, fun d hd => ?_, fun d hd => ?_⟩
  · exact (structDiags_kinds _ d (List.mem_filter.mp hd).1).1
  · exact (fmtDiags_kinds _ d (List.mem_filter.mp hd).1).1

/-- **C4.** The scan of any document text, however malformed, is a total
function into well-formed diagnostic lists: every produced diagnostic is
anchored at a real line of the document (the engine has no failure path —
`scan` is a total Lean function, so no input raises). -/
theorem scan_never_fails (text : String) (d : Diagnostic) (hd : d ∈ scan text) :
    1 ≤ d.line_number ∧ d.line_number ≤ (splitLines text).length := by
  have hd' : d ∈ preScan (splitLines text) :=
    (sortByLine_perm (preScan (splitLines text))).mem_iff.mp hd
  rw [preScan_eq] at hd'
  rcases List.mem_append.mp hd' with h | h
  · simp only [structDiags, List.mem_flatMap] at h
    obtain ⟨e, he, hde⟩ := h
    obtain ⟨h1, -, -⟩ := eventDiags_mem e d hde
    have hb := smEvents_anchor_bounds (splitLines text) e he
    omega
  · simp only [fmtDiags, List.mem_map] at h
    obtain ⟨f, hf, hdf⟩ := h
    have hb := fmtRun_anchor_bounds false none 1 (splitLines text) f hf
    subst hdf
    have h1 := (fmtDiag_facts f).1
    omega

theorem scan_never_fails_witness :
    1 ≤ (unclosedDiag 1).line_number ∧
      (unclosedDiag 1).line_number ≤ (splitLines "```a").length :=
  scan_never_fails "```a" (unclosedDiag 1) (by decide)

theorem strContains_self (s : String) : strContains s s = true := by
  unfold strContains
  exact decide_eq_true (List.infix_refl s.data)

/-- Event stream of a document that opens a fence right after a prefix `A`
that leaves the machine `Outside`, and never closes it: the `A`-events, the
`opened` event, the events of the still-open suffix, and the final
`unclosed` event anchored at the opening line. -/
theorem smEvents_open_noclose (A B : List String) (fo : String)
    (hA : (runSM .Outside 1 A).1 = .Outside)
    (hfo : isFence fo = true)
    (hB : ∀ l ∈ B, isFence l = true →
      ¬(indentationOf l = indentationOf fo ∧ tagOf l = "")) :
    smEvents (A ++ fo :: B) =
      (runSM .Outside 1 A).2 ++
        ([.opened (A.length + 1) (tagOf fo)] ++
          (runSM (.Inside (markerOf (A.length + 1) fo)) (A.length + 2) B).2) ++
        [.unclosed (A.length + 1)] := by
  have hc1 : 1 + A.length = A.length + 1 := by omega
  have hstep : stepState .Outside (A.length + 1) fo =
      .Inside (markerOf (A.length + 1) fo) := by
    unfold stepState; simp [hfo]
  have hev : stepEvents .Outside (A.length + 1) fo =
      [.opened (A.length + 1) (tagOf fo)] := by
    unfold stepEvents; simp [hfo]
  have hstay : (runSM (.Inside (markerOf (A.length + 1) fo)) (A.length + 2) B).1 =
      .Inside (markerOf (A.length + 1) fo) :=
    runSM_stay_inside _ _ _ (fun l hl hf => hB l hl hf)
  have hfst : (runSM .Outside 1 (A ++ fo :: B)).1 =
      .Inside (markerOf (A.length + 1) fo) := by
    rw [runSM_append, hA, hc1, runSM_cons, hstep]
    exact hstay
  have hsnd : (runSM .Outside 1 (A ++ fo :: B)).2 =
      (runSM .Outside 1 A).2 ++
        ([.opened (A.length + 1) (tagOf fo)] ++
          (runSM (.Inside (markerOf (A.length + 1) fo)) (A.length + 2) B).2) := by
    rw [runSM_append, hA, hc1, runSM_cons, hstep, hev]
  rw [smEvents_eq_inside _ _ hfst, hsnd]
  rfl

/-- **C1.** If a document opens a fence at line `L` (the machine is
`Outside` when it reaches that line) and no later line is a bare fence
marker with matching indentation, then the scan result contains exactly one
structural diagnostic at line `L`, and it is the unclosed-block diagnostic
whose message contains `"Unclosed code block starting at line {L}"`. -/
theorem unclosed_fence_diagnosed_once (text : String) (A B : List String)
    (fo : String) (L : Nat)
    (htext : splitLines text = A ++ fo :: B)
    (hA : (runSM .Outside 1 A).1 = .Outside)
    (hfo : isFence fo = true)
    (hB : ∀ l ∈ B, isFence l = true →
      ¬(indentationOf l = indentationOf fo ∧ tagOf l = ""))
    (hL : L = A.length + 1) :
    (scan text).countP
        (fun d => decide (d.severity = .structural ∧ d.line_number = L)) = 1 ∧
      ∀ d ∈ scan text, d.severity = .structural → d.line_number = L →
        d = unclosedDiag L ∧
          strContains d.message
            ("Unclosed code block starting at line " ++ toString L) = true := by
  subst hL
  have hscan : scan text = scanLines (A ++ fo :: B) := by
    unfold scan; rw [htext]
  have hsm := smEvents_open_noclose A B fo hA hfo hB
  have hstruct : structDiags (A ++ fo :: B) =
      ((runSM .Outside 1 A).2).flatMap eventDiags ++
        ([] ++ ((runSM (.Inside (markerOf (A.length + 1) fo)) (A.length + 2)
          B).2).flatMap eventDiags) ++
        [unclosedDiag (A.length + 1)] := by
    unfold structDiags
    rw [hsm]
    simp [List.flatMap_append, eventDiags]
  -- membership characterization in the pre-sort list
  have hmem : ∀ d ∈ preScan (A ++ fo :: B),
      d.severity = .structural → d.line_number = A.length + 1 →
        d = unclosedDiag (A.length + 1) := by
    intro d hd hsev hline
    rw [preScan_eq] at hd
    rcases List.mem_append.mp hd with hd | hd
    · rw [hstruct] at hd
      rcases List.mem_append.mp hd with hd | hd
      · rcases List.mem_append.mp hd with hd | hd
        · simp only [List.mem_flatMap] at hd
          obtain ⟨e, he, hde⟩ := hd
          have hb := runSM_anchor_bounds _ _ _ e he
          have h1 := (eventDiags_mem e d hde).1
          omega
        · simp only [List.nil_append, List.mem_flatMap] at hd
          obtain ⟨e, he, hde⟩ := hd
          have hb := runSM_anchor_bounds _ _ _ e he
          have h1 := (eventDiags_mem e d hde).1
          simp only [SMEvent.anchor] at hb h1
          omega
      · simp only [List.mem_singleton] at hd
        exact hd
    · have := (fmtDiags_kinds _ d hd).1
      rw [hsev] at this
      cases this
  constructor
  · rw [hscan]
    unfold scanLines
    have hperm := sortByLine_perm (preScan (A ++ fo :: B))
    rw [hperm.countP_eq]
    rw [preScan_eq, List.countP_append]
    have hfmt0 : (fmtDiags (A ++ fo :: B)).countP
        (fun d => decide (d.severity = .structural ∧
          d.line_number = A.length + 1)) = 0 := by
      rw [List.countP_eq_zero]
      intro d hd
      have := (fmtDiags_kinds _ d hd).1
      simp [this]
    rw [hfmt0, hstruct]
    rw [List.countP_append, List.countP_append]
    have h1 : (((runSM .Outside 1 A).2).flatMap eventDiags).countP
        (fun d => decide (d.severity = .structural ∧
          d.line_number = A.length + 1)) = 0 := by
      rw [List.countP_eq_zero]
      intro d hd
      simp only [List.mem_flatMap] at hd
      obtain ⟨e, he, hde⟩ := hd
      have hb := runSM_anchor_bounds _ _ _ e he
      have hl := (eventDiags_mem e d hde).1
      simp only [decide_eq_true_eq, not_and]
      intro _
      omega
    have h2 : (([] : List Diagnostic) ++
        ((runSM (.Inside (markerOf (A.length + 1) fo)) (A.length + 2)
          B).2).flatMap eventDiags).countP
        (fun d => decide (d.severity = .structural ∧
          d.line_number = A.length + 1)) = 0 := by
      rw [List.countP_eq_zero]
      intro d hd
      simp only [List.nil_append, List.mem_flatMap] at hd
      obtain ⟨e, he, hde⟩ := hd
      have hb := runSM_anchor_bounds _ _ _ e he
      have hl := (eventDiags_mem e d hde).1
      simp only [decide_eq_true_eq, not_and]
      intro _
      omega
    rw [h1, h2]
    simp [unclosedDiag]
  · intro d hd hsev hline
    rw [hscan] at hd
    have hd' : d ∈ preScan (A ++ fo :: B) :=
      (sortByLine_perm (preScan (A ++ fo :: B))).mem_iff.mp hd
    have hdu := hmem d hd' hsev hline
    subst hdu
    exact ⟨rfl, strContains_self _⟩

theorem unclosed_fence_diagnosed_once_witness :
    ((scan "a\n```markdown\nfoo").countP
        (fun d => decide (d.severity = .structural ∧ d.line_number = 2)) = 1 ∧
      ∀ d ∈ scan "a\n```markdown\nfoo",
        d.severity = .structural → d.line_number = 2 →
          d = unclosedDiag 2 ∧
            strContains d.message
              ("Unclosed code block starting at line " ++ toString 2) = true) :=
  unclosed_fence_diagnosed_once "a\n```markdown\nfoo" ["a"] ["foo"]
    "```markdown" 2 (by decide) (by decide) (by decide) (by decide) (by decide)

/-- The synthesizer never produces the generic extra-text restatement: every
diagnostic of every scan has a different kind. -/
theorem scan_no_extraText (text : String) (d : Diagnostic) (hd : d ∈ scan text) :
    ¬d.kind = .closingFenceExtraText := by
  have hd' : d ∈ preScan (splitLines text) :=
    (sortByLine_perm (preScan (splitLines text))).mem_iff.mp hd
  rw [preScan_eq] at hd'
  rcases List.mem_append.mp hd' with h | h
  · exact (structDiags_kinds _ d h).2
  · exact (fmtDiags_kinds _ d h).2.1

/-- Event stream of a document that opens a fence after prefix `A`, keeps it
open through `B`, and then meets a tagged fence marker `fm`: the ambiguous
event at `fm`'s line is emitted with the opening line as root, and every
later event is either anchored strictly after `fm` or is the final
unclosed-block event. -/
theorem smEvents_open_ambiguous (A B R : List String) (fo fm : String)
    (hA : (runSM .Outside 1 A).1 = .Outside)
    (hfo : isFence fo = true)
    (hB : ∀ l ∈ B, isFence l = true →
      ¬(indentationOf l = indentationOf fo ∧ tagOf l = ""))
    (hfm : isFence fm = true) (htag : ¬tagOf fm = "") :
    ∃ tail : List SMEvent,
      smEvents (A ++ fo :: (B ++ fm :: R)) =
        (runSM .Outside 1 A).2 ++
          ([SMEvent.opened (A.length + 1) (tagOf fo)] ++
            ((runSM (.Inside (markerOf (A.length + 1) fo)) (A.length + 2) B).2 ++
              ([SMEvent.ambiguous (A.length + B.length + 2) (A.length + 1)] ++
                tail))) ∧
        ∀ e ∈ tail, A.length + B.length + 2 < e.anchor ∨
          ∃ n, e = SMEvent.unclosed n := by
  have hc1 : 1 + A.length = A.length + 1 := by omega
  have hc3 : A.length + 2 + B.length = A.length + B.length + 2 := by omega
  have hc4 : A.length + B.length + 2 + 1 = A.length + B.length + 3 := by omega
  have hstep : stepState .Outside (A.length + 1) fo =
      .Inside (markerOf (A.length + 1) fo) := by
    unfold stepState; simp [hfo]
  have hev : stepEvents .Outside (A.length + 1) fo =
      [.opened (A.length + 1) (tagOf fo)] := by
    unfold stepEvents; simp [hfo]
  have hstay : (runSM (.Inside (markerOf (A.length + 1) fo)) (A.length + 2) B).1 =
      .Inside (markerOf (A.length + 1) fo) :=
    runSM_stay_inside _ _ _ (fun l hl hf => hB l hl hf)
  have hstepm := stepState_inside_tagged (markerOf (A.length + 1) fo)
    (A.length + B.length + 2) fm hfm htag
  have hevm := stepEvents_inside_tagged (markerOf (A.length + 1) fo)
    (A.length + B.length + 2) fm hfm htag
  have hall : runSM .Outside 1 (A ++ fo :: (B ++ fm :: R)) =
      ((runSM (.Inside (markerOf (A.length + 1) fo)) (A.length + B.length + 3)
          R).1,
        (runSM .Outside 1 A).2 ++
          ([SMEvent.opened (A.length + 1) (tagOf fo)] ++
            ((runSM (.Inside (markerOf (A.length + 1) fo)) (A.length + 2) B).2 ++
              ([SMEvent.ambiguous (A.length + B.length + 2) (A.length + 1)] ++
                (runSM (.Inside (markerOf (A.length + 1) fo))
                  (A.length + B.length + 3) R).2)))) := by
    rw [runSM_append, hA, hc1, runSM_cons, hstep, hev, runSM_append, hstay]
    rw [show A.length + 1 + 1 = A.length + 2 from by omega]
    rw [hc3, runSM_cons, hstepm, hevm, hc4]
    rfl
  have hanchors := runSM_anchor_bounds
    (.Inside (markerOf (A.length + 1) fo)) (A.length + B.length + 3) R
  cases hfin : (runSM (.Inside (markerOf (A.length + 1) fo))
      (A.length + B.length + 3) R).1 with
  | Outside =>
    refine ⟨(runSM (.Inside (markerOf (A.length + 1) fo))
      (A.length + B.length + 3) R).2, ?_, ?_⟩
    · have h1 : (runSM .Outside 1 (A ++ fo :: (B ++ fm :: R))).1 = .Outside := by
        rw [hall]; exact hfin
      rw [smEvents_eq_outside _ h1, hall]
    · intro e he
      left
      have := hanchors e he
      omega
  | Inside m =>
    refine ⟨(runSM (.Inside (markerOf (A.length + 1) fo))
      (A.length + B.length + 3) R).2 ++ [SMEvent.unclosed m.lineIndex], ?_, ?_⟩
    · have h1 : (runSM .Outside 1 (A ++ fo :: (B ++ fm :: R))).1 = .Inside m := by
        rw [hall]; exact hfin
      rw [smEvents_eq_inside _ _ h1, hall]
      simp [List.append_assoc]
    · intro e he
      rcases List.mem_append.mp he with he | he
      · left
        have := hanchors e he
        omega
      · right
        simp only [List.mem_singleton] at he
        exact ⟨m.lineIndex, he⟩

/-- **C3.** After an unclosed opening fence at line `L`, a later tagged
fence-like line at `M` (with a bare fence at a still later line `P`) yields
exactly one cascade-explanation diagnostic, anchored at `M` with
`root_cause_line = L`; and no generic "extra text on closing fence"
diagnostic appears at line `P` (the synthesizer never emits that kind — the
§4.4 step 4 suppression has nothing to remove). -/
theorem cascade_explained_once (text : String) (A B C D : List String)
    (fo fm fp : String) (L M P : Nat)
    (htext : splitLines text = A ++ fo :: (B ++ fm :: (C ++ fp :: D)))
    (hA : (runSM .Outside 1 A).1 = .Outside)
    (hfo : isFence fo = true)
    (hB : ∀ l ∈ B, isFence l = true →
      ¬(indentationOf l = indentationOf fo ∧ tagOf l = ""))
    (hfm : isFence fm = true) (htag : ¬tagOf fm = "")
    (hfp : isFence fp = true) (hbare : tagOf fp = "")
    (hL : L = A.length + 1) (hM : M = A.length + B.length + 2)
    (hP : P = A.length + B.length + C.length + 3) :
    (scan text).countP
        (fun d => decide (d.kind = .cascadeExplanation ∧ d.line_number = M)) = 1 ∧
      (∀ d ∈ scan text, d.kind = .cascadeExplanation → d.line_number = M →
        d = cascadeDiag M L ∧ d.root_cause_line = some L) ∧
      (scan text).countP
        (fun d => decide (d.kind = .closingFenceExtraText ∧
          d.line_number = P)) = 0 := by
  subst hL hM hP
  have hscan : scan text = scanLines (A ++ fo :: (B ++ fm :: (C ++ fp :: D))) := by
    unfold scan; rw [htext]
  obtain ⟨tail, hsm, htail⟩ :=
    smEvents_open_ambiguous A B (C ++ fp :: D) fo fm hA hfo hB hfm htag
  have hstruct : structDiags (A ++ fo :: (B ++ fm :: (C ++ fp :: D))) =
      ((runSM .Outside 1 A).2).flatMap eventDiags ++
        ([] ++
          (((runSM (.Inside (markerOf (A.length + 1) fo)) (A.length + 2)
              B).2).flatMap eventDiags ++
            ([cascadeDiag (A.length + B.length + 2) (A.length + 1)] ++
              tail.flatMap eventDiags))) := by
    unfold structDiags
    rw [hsm]
    simp [List.flatMap_append, eventDiags]
  have hmem : ∀ d ∈ preScan (A ++ fo :: (B ++ fm :: (C ++ fp :: D))),
      d.kind = .cascadeExplanation →
        d.line_number = A.length + B.length + 2 →
          d = cascadeDiag (A.length + B.length + 2) (A.length + 1) := by
    intro d hd hkind hline
    rw [preScan_eq] at hd
    rcases List.mem_append.mp hd with hd | hd
    · rw [hstruct] at hd
      rcases List.mem_append.mp hd with hd | hd
      · simp only [List.mem_flatMap] at hd
        obtain ⟨e, he, hde⟩ := hd
        have hb := runSM_anchor_bounds _ _ _ e he
        have h1 := (eventDiags_mem e d hde).1
        omega
      · simp only [List.nil_append] at hd
        rcases List.mem_append.mp hd with hd | hd
        · simp only [List.mem_flatMap] at hd
          obtain ⟨e, he, hde⟩ := hd
          have hb := runSM_anchor_bounds _ _ _ e he
          have h1 := (eventDiags_mem e d hde).1
          omega
        · rcases List.mem_append.mp hd with hd | hd
          · simp only [List.mem_singleton] at hd
            exact hd
          · simp only [List.mem_flatMap] at hd
            obtain ⟨e, he, hde⟩ := hd
            rcases htail e he with hgt | ⟨n, hn⟩
            · have h1 := (eventDiags_mem e d hde).1
              omega
            · subst hn
              simp only [eventDiags, List.mem_singleton] at hde
              subst hde
              simp [unclosedDiag] at hkind
    · exact absurd hkind (fmtDiags_kinds _ d hd).2.2.1
  refine ⟨?_, ?_, ?_⟩
  · rw [hscan]
    unfold scanLines
    rw [(sortByLine_perm _).countP_eq, preScan_eq, List.countP_append]
    have hfmt0 : (fmtDiags (A ++ fo :: (B ++ fm :: (C ++ fp :: D)))).countP
        (fun d => decide (d.kind = .cascadeExplanation ∧
          d.line_number = A.length + B.length + 2)) = 0 := by
      rw [List.countP_eq_zero]
      intro d hd
      have := (fmtDiags_kinds _ d hd).2.2.1
      simp only [decide_eq_true_eq, not_and]
      intro hk
      exact absurd hk this
    rw [hfmt0, hstruct]
    simp only [List.nil_append, List.countP_append]
    have h1 : (((runSM .Outside 1 A).2).flatMap eventDiags).countP
        (fun d => decide (d.kind = .cascadeExplanation ∧
          d.line_number = A.length + B.length + 2)) = 0 := by
      rw [List.countP_eq_zero]
      intro d hd
      simp only [List.mem_flatMap] at hd
      obtain ⟨e, he, hde⟩ := hd
      have hb := runSM_anchor_bounds _ _ _ e he
      have hl := (eventDiags_mem e d hde).1
      simp only [decide_eq_true_eq, not_and]
      intro _
      omega
    have h2 : ((((runSM (.Inside (markerOf (A.length + 1) fo)) (A.length + 2)
        B).2)).flatMap eventDiags).countP
        (fun d => decide (d.kind = .cascadeExplanation ∧
          d.line_number = A.length + B.length + 2)) = 0 := by
      rw [List.countP_eq_zero]
      intro d hd
      simp only [List.mem_flatMap] at hd
      obtain ⟨e, he, hde⟩ := hd
      have hb := runSM_anchor_bounds _ _ _ e he
      have hl := (eventDiags_mem e d hde).1
      simp only [decide_eq_true_eq, not_and]
      intro _
      omega
    have h3 : (tail.flatMap eventDiags).countP
        (fun d => decide (d.kind = .cascadeExplanation ∧
          d.line_number = A.length + B.length + 2)) = 0 := by
      rw [List.countP_eq_zero]
      intro d hd
      simp only [List.mem_flatMap] at hd
      obtain ⟨e, he, hde⟩ := hd
      rcases htail e he with hgt | ⟨n, hn⟩
      · have hl := (eventDiags_mem e d hde).1
        simp only [decide_eq_true_eq, not_and]
        intro _
        omega
      · subst hn
        simp only [eventDiags, List.mem_singleton] at hde
        subst hde
        simp [unclosedDiag]
    rw [h1, h2, h3]
    simp [cascadeDiag]
  · intro d hd hkind hline
    rw [hscan] at hd
    have hd' := (sortByLine_perm _).mem_iff.mp hd
    have := hmem d hd' hkind hline
    subst this
    exact ⟨rfl, rfl⟩
  · rw [List.countP_eq_zero]
    intro d hd
    have := scan_no_extraText text d hd
    simp only [decide_eq_true_eq, not_and]
    intro hk
    exact absurd hk this

theorem cascade_explained_once_witness :
    ((scan "a\n```markdown\nb\n```text\nc\n```\nd").countP
        (fun d => decide (d.kind = .cascadeExplanation ∧ d.line_number = 4)) = 1 ∧
      (∀ d ∈ scan "a\n```markdown\nb\n```text\nc\n```\nd",
        d.kind = .cascadeExplanation → d.line_number = 4 →
          d = cascadeDiag 4 2 ∧ d.root_cause_line = some 2) ∧
      (scan "a\n```markdown\nb\n```text\nc\n```\nd").countP
        (fun d => decide (d.kind = .closingFenceExtraText ∧
          d.line_number = 6)) = 0) :=
  cascade_explained_once "a\n```markdown\nb\n```text\nc\n```\nd"
    ["a"] ["b"] ["c"] ["d"] "```markdown" "```text" "```" 2 4 6
    (by decide) (by decide) (by decide) (by decide) (by decide) (by decide)
    (by decide) (by decide) (by decide) (by decide) (by decide)

theorem fmtRun_nofence (b : Bool) (prev : Option String) (i : Nat)
    (ls : List String) (h : ∀ l ∈ ls, isFence l = false) :
    fmtRun b prev i ls = [] := by
  have hx := fmtRun_nofence_append b prev i ls [] h
  rw [List.append_nil] at hx
  rw [hx, fmtRun_nil]

/-- With exactly one (well-formed) fence pair in the document, the state
machine closes the block and produces no structural diagnostics at all. -/
theorem structDiags_single_pair (A B C : List String) (fo fc : String)
    (hA : ∀ l ∈ A, isFence l = false) (hB : ∀ l ∈ B, isFence l = false)
    (hC : ∀ l ∈ C, isFence l = false)
    (hfo : isFence fo = true) (hfc : isFence fc = true)
    (hfctag : tagOf fc = "") (hind : indentationOf fc = indentationOf fo) :
    structDiags (A ++ fo :: (B ++ fc :: C)) = [] := by
  have hrunA := runSM_nofence .Outside 1 A hA
  have hstep : stepState .Outside (A.length + 1) fo =
      .Inside (markerOf (A.length + 1) fo) := by
    unfold stepState; simp [hfo]
  have hev : stepEvents .Outside (A.length + 1) fo =
      [.opened (A.length + 1) (tagOf fo)] := by
    unfold stepEvents; simp [hfo]
  have hrunB := runSM_nofence (.Inside (markerOf (A.length + 1) fo))
    (A.length + 2) B hB
  have hcond : indentationOf fc = (markerOf (A.length + 1) fo).indentation ∧
      tagOf fc = "" := ⟨hind, hfctag⟩
  have hstepc : stepState (.Inside (markerOf (A.length + 1) fo))
      (A.length + B.length + 2) fc = .Outside := by
    unfold stepState; simp [hfc, hcond]
  have hevc : stepEvents (.Inside (markerOf (A.length + 1) fo))
      (A.length + B.length + 2) fc = [.closed (A.length + B.length + 2)] := by
    unfold stepEvents; simp [hfc, hcond]
  have hrunC := runSM_nofence .Outside (A.length + B.length + 3) C hC
  have hall : runSM .Outside 1 (A ++ fo :: (B ++ fc :: C)) =
      (.Outside, [SMEvent.opened (A.length + 1) (tagOf fo),
        SMEvent.closed (A.length + B.length + 2)]) := by
    rw [runSM_append, hrunA]
    rw [show (1 : Nat) + A.length = A.length + 1 from by omega]
    rw [runSM_cons, hstep, hev, runSM_append, hrunB]
    rw [show A.length + 1 + 1 = A.length + 2 from by omega]
    rw [show A.length + 2 + B.length = A.length + B.length + 2 from by omega]
    rw [runSM_cons, hstepc, hevc]
    rw [show A.length + B.length + 2 + 1 = A.length + B.length + 3 from by omega]
    rw [hrunC]
    rfl
  have hfst : (runSM .Outside 1 (A ++ fo :: (B ++ fc :: C))).1 = .Outside := by
    rw [hall]
  unfold structDiags
  rw [smEvents_eq_outside _ hfst, hall]
  rfl

/-- With exactly one fence pair, the formatting findings consist of the
missing-language finding for the opener (when its tag is empty) together
with possible blank-line findings only. -/
theorem fmtFindings_single_pair (A B C : List String) (fo fc : String)
    (hA : ∀ l ∈ A, isFence l = false) (hB : ∀ l ∈ B, isFence l = false)
    (hC : ∀ l ∈ C, isFence l = false)
    (hfo : isFence fo = true) (hfc : isFence fc = true) :
    ∃ pre post : List FmtFinding,
      fmtFindings (A ++ fo :: (B ++ fc :: C)) =
        (if tagOf fo = "" then [FmtFinding.missingLanguage (A.length + 1)]
          else []) ++ (pre ++ post) ∧
        (∀ f ∈ pre, ∃ n, f = FmtFinding.missingBlankBefore n) ∧
        (∀ f ∈ post, ∃ n, f = FmtFinding.missingBlankAfter n) := by
  unfold fmtFindings
  rw [fmtRun_nofence_append false none 1 A _ hA]
  rw [show (1 : Nat) + A.length = A.length + 1 from by omega]
  rw [show fmtRun false (lastO none A) (A.length + 1) (fo :: (B ++ fc :: C)) =
      (if tagOf fo = "" then [FmtFinding.missingLanguage (A.length + 1)]
        else []) ++
      (blankBeforeFindings (lastO none A) (A.length + 1) ++
        fmtRun true (some fo) (A.length + 1 + 1) (B ++ fc :: C))
    from by simp [fmtRun, hfo, List.append_assoc]]
  rw [fmtRun_nofence_append true (some fo) (A.length + 1 + 1) B _ hB]
  rw [show A.length + 1 + 1 + B.length = A.length + B.length + 2 from by omega]
  rw [show fmtRun true (lastO (some fo) B) (A.length + B.length + 2)
        (fc :: C) =
      blankAfterFindings C (A.length + B.length + 2) ++
        fmtRun false (some fc) (A.length + B.length + 2 + 1) C
    from by simp [fmtRun, hfc]]
  rw [fmtRun_nofence false (some fc) (A.length + B.length + 2 + 1) C hC]
  refine ⟨blankBeforeFindings (lastO none A) (A.length + 1),
    blankAfterFindings C (A.length + B.length + 2), ?_, ?_, ?_⟩
  · rw [List.append_nil]
  · intro f hf
    exact ⟨A.length + 1, mem_blankBeforeFindings _ _ f hf⟩
  · intro f hf
    exact ⟨A.length + B.length + 2, mem_blankAfterFindings _ _ f hf⟩

/-- **C7.** A document whose only fence block is a bare (no language tag)
opening marker that is correctly closed yields exactly one missing-language
formatting diagnostic, referencing the opening line, and zero structural
diagnostics. -/
theorem missing_language_single_diag (text : String) (A B C : List String)
    (fo fc : String) (o : Nat)
    (htext : splitLines text = A ++ fo :: (B ++ fc :: C))
    (hA : ∀ l ∈ A, isFence l = false) (hB : ∀ l ∈ B, isFence l = false)
    (hC : ∀ l ∈ C, isFence l = false)
    (hfo : isFence fo = true) (hfotag : tagOf fo = "")
    (hfc : isFence fc = true) (hfctag : tagOf fc = "")
    (hind : indentationOf fc = indentationOf fo)
    (ho : o = A.length + 1) :
    (scan text).countP (fun d => decide (d.kind = .missingLanguage)) = 1 ∧
      (∀ d ∈ scan text, d.kind = .missingLanguage →
        d = fmtDiag (.missingLanguage o)) ∧
      (scan text).countP (fun d => decide (d.severity = .structural)) = 0 := by
  subst ho
  have hscan : scan text = scanLines (A ++ fo :: (B ++ fc :: C)) := by
    unfold scan; rw [htext]
  have hstruct := structDiags_single_pair A B C fo fc hA hB hC hfo hfc hfctag hind
  obtain ⟨pre, post, hfmt, hpre, hpost⟩ :=
    fmtFindings_single_pair A B C fo fc hA hB hC hfo hfc
  have hfmt2 : fmtFindings (A ++ fo :: (B ++ fc :: C)) =
      [FmtFinding.missingLanguage (A.length + 1)] ++ (pre ++ post) := by
    rw [hfmt, if_pos hfotag]
  have hps : preScan (A ++ fo :: (B ++ fc :: C)) =
      fmtDiag (FmtFinding.missingLanguage (A.length + 1)) ::
        (pre.map fmtDiag ++ post.map fmtDiag) := by
    rw [preScan_eq, hstruct, List.nil_append]
    unfold fmtDiags
    rw [hfmt2]
    simp [List.map_append]
  have hmem2 : ∀ d ∈ preScan (A ++ fo :: (B ++ fc :: C)),
      d.kind = .missingLanguage →
        d = fmtDiag (.missingLanguage (A.length + 1)) := by
    intro d hd hk
    rw [hps] at hd
    rcases List.mem_cons.mp hd with hd | hd
    · exact hd
    · rcases List.mem_append.mp hd with hd | hd
      · obtain ⟨f, hfmem, hdf⟩ := List.mem_map.mp hd
        obtain ⟨n, hn⟩ := hpre f hfmem
        subst hn
        subst hdf
        simp [fmtDiag] at hk
      · obtain ⟨f, hfmem, hdf⟩ := List.mem_map.mp hd
        obtain ⟨n, hn⟩ := hpost f hfmem
        subst hn
        subst hdf
        simp [fmtDiag] at hk
  refine ⟨?_, ?_, ?_⟩
  · rw [hscan]
    unfold scanLines
    rw [(sortByLine_perm _).countP_eq, hps]
    have hp0 : (pre.map fmtDiag).countP
        (fun d => decide (d.kind = DiagKind.missingLanguage)) = 0 := by
      rw [List.countP_eq_zero]
      intro d hd
      obtain ⟨f, hfmem, hdf⟩ := List.mem_map.mp hd
      obtain ⟨n, hn⟩ := hpre f hfmem
      subst hn
      subst hdf
      simp [fmtDiag]
    have hq0 : (post.map fmtDiag).countP
        (fun d => decide (d.kind = DiagKind.missingLanguage)) = 0 := by
      rw [List.countP_eq_zero]
      intro d hd
      obtain ⟨f, hfmem, hdf⟩ := List.mem_map.mp hd
      obtain ⟨n, hn⟩ := hpost f hfmem
      subst hn
      subst hdf
      simp [fmtDiag]
    simp [List.countP_cons, List.countP_append, hp0, hq0, fmtDiag]
  · intro d hd hk
    rw [hscan] at hd
    exact hmem2 d ((sortByLine_perm _).mem_iff.mp hd) hk
  · rw [hscan]
    unfold scanLines
    rw [(sortByLine_perm _).countP_eq, List.countP_eq_zero]
    intro d hd
    rw [hps] at hd
    have hdf : d.severity = .formatting := by
      rcases List.mem_cons.mp hd with hd | hd
      · subst hd; rfl
      · rcases List.mem_append.mp hd with hd | hd <;>
        · obtain ⟨f, hfmem, hdf⟩ := List.mem_map.mp hd
          subst hdf
          exact (fmtDiag_facts f).2.1
    simp [hdf]

theorem missing_language_single_diag_witness :
    ((scan "a\n```\nx\n```\nb").countP
        (fun d => decide (d.kind = .missingLanguage)) = 1 ∧
      (∀ d ∈ scan "a\n```\nx\n```\nb", d.kind = .missingLanguage →
        d = fmtDiag (.missingLanguage 2)) ∧
      (scan "a\n```\nx\n```\nb").countP
        (fun d => decide (d.severity = .structural)) = 0) :=
  missing_language_single_diag "a\n```\nx\n```\nb" ["a"] ["x"] ["b"]
    "```" "```" 2 (by decide) (by decide) (by decide) (by decide) (by decide)
    (by decide) (by decide) (by decide) (by decide) (by decide)

/-! ## Frontmatter metadata model (`docuchango/fixes/whitespace.py`)

Python metadata values are embedded as `PyVal`; a frontmatter dict is an
insertion-ordered association list (Python dicts preserve insertion order
and have unique keys). -/

/-- A Python value as it occurs in frontmatter metadata: `None`, `str`,
`int`, `bool`, `list`, or some other object (opaque). -/
inductive PyVal where
  | none
  | str (s : String)
  | int (n : Int)
  | bool (b : Bool)
  | list (xs : List PyVal)
  | other (tag : Nat)
deriving Repr

/-- `value is None`. -/
def PyVal.isNone : PyVal → Bool
  | .none => true
  | _ => false

/-- `isinstance(value, str) and value.strip() == ""`. -/
def isBlankStr : PyVal → Bool
  | .str s => strip s = ""
  | _ => false

/-- `isinstance(value, list) and len(value) == 0`. -/
def isEmptyList : PyVal → Bool
  | .list xs => xs.isEmpty
  | _ => false

/-- Fields that should be empty arrays, not missing
(`array_fields` in `normalize_empty_values`). -/
def array_fields : List String := ["tags", "authors", "reviewers", "related"]

/-- `normalize_empty_values(metadata)` from `fixes/whitespace.py`: drop
blank-string values, drop `None` values, keep empty arrays only under the
`array_fields` keys, keep everything else; returns the updated dict and the
messages, in iteration order. -/
def normalize_empty_values :
    List (String × PyVal) → List (String × PyVal) × List String
  | [] => ([], [])
  | (k, v) :: rest =>
    if isBlankStr v then
      ((normalize_empty_values rest).1,
        ("Removed empty string value from \x27" ++ k ++ "\x27") ::
          (normalize_empty_values rest).2)
    else if v.isNone then
      ((normalize_empty_values rest).1,
        ("Removed null value from \x27" ++ k ++ "\x27") ::
          (normalize_empty_values rest).2)
    else if isEmptyList v then
      if k ∈ array_fields then
        ((k, v) :: (normalize_empty_values rest).1,
          (normalize_empty_values rest).2)
      else
        ((normalize_empty_values rest).1,
          ("Removed empty array from \x27" ++ k ++ "\x27") ::
            (normalize_empty_values rest).2)
    else ((k, v) :: (normalize_empty_values rest).1,
      (normalize_empty_values rest).2)

/-- Python `updated.get(key)` over an association-list dict. -/
def dictGet (m : List (String × PyVal)) (k : String) : Option PyVal :=
  (m.find? (fun p => p.1 == k)).map Prod.snd

/-- Python `key in updated`. -/
def dictContains (m : List (String × PyVal)) (k : String) : Bool :=
  (dictGet m k).isSome

/-- Python `updated[key] = value`: overwrite in place when the key exists
(dict position is preserved), else append at the end. -/
def dictSet (m : List (String × PyVal)) (k : String) (v : PyVal) :
    List (String × PyVal) :=
  if m.any (fun p => p.1 == k) then
    m.map (fun p => if p.1 == k then (k, v) else p)
  else m ++ [(k, v)]

/-- Python truthiness of a metadata value (`not updated.get(key)`). -/
def PyVal.truthy : PyVal → Bool
  | .none => false
  | .str s => !(s == "")
  | .int n => !(n == 0)
  | .bool b => b
  | .list xs => !xs.isEmpty
  | .other _ => true

/-- Truthiness of `updated.get(key)` (missing keys give `None`, falsy). -/
def optTruthy : Option PyVal → Bool
  | Option.none => false
  | Option.some v => v.truthy

/-- `ensure_required_fields` step 1: add `tags` when missing. -/
def erfTags (m : List (String × PyVal)) : List (String × PyVal) :=
  if dictContains m "tags" then m else dictSet m "tags" (PyVal.list [])

/-- `ensure_required_fields` step 2: set `doc_uuid` when missing or falsy
(`str(uuid.uuid4())` is passed in as `freshUuid`). -/
def erfUuid (m : List (String × PyVal)) (freshUuid : String) :
    List (String × PyVal) :=
  if !dictContains m "doc_uuid" || !optTruthy (dictGet m "doc_uuid") then
    dictSet m "doc_uuid" (PyVal.str freshUuid)
  else m

/-- `ensure_required_fields` step 3: set `project_id` when missing or falsy. -/
def erfProject (m : List (String × PyVal)) : List (String × PyVal) :=
  if !dictContains m "project_id" || !optTruthy (dictGet m "project_id") then
    dictSet m "project_id" (PyVal.str "my-project")
  else m

/-- `ensure_required_fields(metadata, doc_type)` from `fixes/whitespace.py`
(`doc_type` is reserved for future use and unused; `freshUuid` stands for
the `str(uuid.uuid4())` call). -/
def ensure_required_fields (metadata : List (String × PyVal))
    (doc_type : Option String) (freshUuid : String) :
    List (String × PyVal) × List String :=
  (erfProject (erfUuid (erfTags metadata) freshUuid),
    (if dictContains metadata "tags" then []
      else ["Added missing \x27tags\x27 field (empty array)"]) ++
    (if !dictContains (erfTags metadata) "doc_uuid" ||
        !optTruthy (dictGet (erfTags metadata) "doc_uuid") then
      ["Generated missing \x27doc_uuid\x27"] else []) ++
    (if !dictContains (erfUuid (erfTags metadata) freshUuid) "project_id" ||
        !optTruthy (dictGet (erfUuid (erfTags metadata) freshUuid)
          "project_id") then
      ["Added default \x27project_id\x27"] else []))

/-! ## Lemmas and claims for `normalize_empty_values` (C9) -/

theorem nev_kept_values (m : List (String × PyVal)) :
    ∀ p ∈ (normalize_empty_values m).1,
      p.2.isNone = false ∧ (∀ s, p.2 = PyVal.str s → ¬strip s = "") ∧
        (p.2 = PyVal.list [] → p.1 ∈ array_fields) := by
  induction m with
  | nil =>
    intro p hp
    simp [normalize_empty_values] at hp
  | cons pr rest ih =>
    rcases pr with ⟨k, v⟩
    intro p hp
    cases h1 : isBlankStr v with
    | true =>
      simp only [normalize_empty_values, h1, if_true] at hp
      exact ih p hp
    | false =>
    cases h2 : PyVal.isNone v with
    | true =>
      simp only [normalize_empty_values, h1, h2, Bool.false_eq_true, if_false,
        if_true] at hp
      exact ih p hp
    | false =>
    cases h3 : isEmptyList v with
    | true =>
      by_cases h4 : k ∈ array_fields
      · simp only [normalize_empty_values, h1, h2, h3, Bool.false_eq_true,
          if_false, if_true, h4, List.mem_cons] at hp
        rcases hp with hp | hp
        · subst hp
          refine ⟨h2, ?_, fun _ => h4⟩
          intro s hs
          have hs2 : v = PyVal.str s := hs
          rw [hs2] at h1
          simpa [isBlankStr] using h1
        · exact ih p hp
      · simp only [normalize_empty_values, h1, h2, h3, Bool.false_eq_true,
          if_false, if_true, h4] at hp
        exact ih p hp
    | false =>
      simp only [normalize_empty_values, h1, h2, h3, Bool.false_eq_true,
        if_false, List.mem_cons] at hp
      rcases hp with hp | hp
      · subst hp
        refine ⟨h2, ?_, ?_⟩
        · intro s hs
          have hs2 : v = PyVal.str s := hs
          rw [hs2] at h1
          simpa [isBlankStr] using h1
        · intro hl
          have hl2 : v = PyVal.list [] := hl
          rw [hl2] at h3
          simp [isEmptyList] at h3
      · exact ih p hp

theorem nev_preserves (m : List (String × PyVal)) :
    ∀ p ∈ m, isBlankStr p.2 = false → PyVal.isNone p.2 = false →
      (isEmptyList p.2 = true → p.1 ∈ array_fields) →
      p ∈ (normalize_empty_values m).1 := by
  induction m with
  | nil => intro p hp; simp at hp
  | cons pr rest ih =>
    rcases pr with ⟨k, v⟩
    intro p hp h1 h2 h3
    rcases List.mem_cons.mp hp with hp | hp
    · subst hp
      simp only at h1 h2 h3
      cases h3' : isEmptyList v with
      | true =>
        have h4 := h3 h3'
        simp [normalize_empty_values, h1, h2, h3', h4]
      | false =>
        simp [normalize_empty_values, h1, h2, h3']
    · have hrest := ih p hp h1 h2 h3
      cases h1' : isBlankStr v with
      | true => simpa [normalize_empty_values, h1'] using hrest
      | false =>
      cases h2' : PyVal.isNone v with
      | true => simpa [normalize_empty_values, h1', h2'] using hrest
      | false =>
      cases h3' : isEmptyList v with
      | true =>
        by_cases h4 : k ∈ array_fields
        · simp [normalize_empty_values, h1', h2', h3', h4]
          exact Or.inr hrest
        · simpa [normalize_empty_values, h1', h2', h3', h4] using hrest
      | false =>
        simp [normalize_empty_values, h1', h2', h3']
        exact Or.inr hrest

/-- **C9.** The dict returned by `normalize_empty_values` contains no `None`
value, no string value that strips to empty, and an empty-list value only
under one of the `array_fields` keys (`tags`, `authors`, `reviewers`,
`related`); every other entry of the input is preserved with its original
value. -/
theorem normalize_empty_values_spec (m : List (String × PyVal)) :
    (∀ p ∈ (normalize_empty_values m).1,
      p.2.isNone = false ∧ (∀ s, p.2 = PyVal.str s → ¬strip s = "") ∧
        (p.2 = PyVal.list [] → p.1 ∈ array_fields)) ∧
    (∀ p ∈ m, isBlankStr p.2 = false → PyVal.isNone p.2 = false →
      (isEmptyList p.2 = true → p.1 ∈ array_fields) →
      p ∈ (normalize_empty_values m).1) :=
  ⟨nev_kept_values m, nev_preserves m⟩

theorem normalize_empty_values_spec_witness :
    ("b", PyVal.int 3) ∈
      (normalize_empty_values [("a", PyVal.str " "), ("tags", PyVal.list []),
        ("b", PyVal.int 3), ("c", PyVal.none)]).1 :=
  (normalize_empty_values_spec _).2 ("b", PyVal.int 3)
    (List.mem_cons_of_mem _ (List.mem_cons_of_mem _ (List.mem_cons_self _ _)))
    (by decide) (by decide) (by intro h; cases h)

/-! ## Lemmas and claims for `ensure_required_fields` (C10) -/

theorem dictGet_dictSet_same (m : List (String × PyVal)) (k : String)
    (v : PyVal) : dictGet (dictSet m k v) k = some v := by
  unfold dictSet dictGet
  by_cases hany : m.any (fun p => p.1 == k) = true
  · rw [if_pos hany, List.find?_map]
    have hpred : ((fun p => p.1 == k) ∘
        (fun p => if p.1 == k then (k, v) else p)) =
        (fun (p : String × PyVal) => p.1 == k) := by
      funext p
      by_cases h : (p.1 == k) = true
      · simp [Function.comp, h]
      · simp [Function.comp, h]
    rw [hpred]
    cases hfind : m.find? (fun p => p.1 == k) with
    | none =>
      rw [List.find?_eq_none] at hfind
      obtain ⟨a, ha, hpa⟩ := List.any_eq_true.mp hany
      exact absurd hpa (hfind a ha)
    | some b =>
      have hb := List.find?_some hfind
      have hb1 : b.1 = k := eq_of_beq hb
      simp [hb1]
  · rw [if_neg hany, List.find?_append]
    have hnone : m.find? (fun p => p.1 == k) = Option.none := by
      rw [List.find?_eq_none]
      intro x hx hpx
      exact hany (List.any_eq_true.mpr ⟨x, hx, hpx⟩)
    rw [hnone]
    simp [List.find?]

theorem dictGet_dictSet_other (m : List (String × PyVal)) (k k' : String)
    (v : PyVal) (hne : ¬k' = k) :
    dictGet (dictSet m k v) k' = dictGet m k' := by
  have hkk : (k == k') = false := by
    simp only [beq_eq_false_iff_ne, ne_eq]
    exact fun h => hne h.symm
  unfold dictSet dictGet
  by_cases hany : m.any (fun p => p.1 == k) = true
  · rw [if_pos hany, List.find?_map]
    have hpred : ((fun p => p.1 == k') ∘
        (fun p => if p.1 == k then (k, v) else p)) =
        (fun (p : String × PyVal) => p.1 == k') := by
      funext p
      by_cases h : (p.1 == k) = true
      · have hp1 : p.1 = k := eq_of_beq h
        simp [Function.comp, h, hp1, hkk]
      · simp [Function.comp, h]
    rw [hpred]
    cases hfind : m.find? (fun p => p.1 == k') with
    | none => simp
    | some b =>
      have hb := List.find?_some hfind
      have hb1 : b.1 = k' := eq_of_beq hb
      have hb2 : ¬b.1 = k := by
        rw [hb1]
        exact hne
      simp [hb2]
  · rw [if_neg hany, List.find?_append]
    have h2 : ([(k, v)].find? (fun p => p.1 == k')) = Option.none := by
      simp [List.find?, hkk]
    rw [h2]
    simp

theorem erfTags_contains (m : List (String × PyVal)) :
    dictContains (erfTags m) "tags" = true := by
  unfold erfTags
  by_cases h : dictContains m "tags" = true
  · rw [if_pos h]; exact h
  · rw [if_neg h]
    show (dictGet (dictSet m "tags" (PyVal.list [])) "tags").isSome = true
    rw [dictGet_dictSet_same]
    rfl

theorem erfTags_get_other (m : List (String × PyVal)) (k : String)
    (h : ¬k = "tags") : dictGet (erfTags m) k = dictGet m k := by
  unfold erfTags
  by_cases hc : dictContains m "tags" = true
  · rw [if_pos hc]
  · rw [if_neg hc]
    exact dictGet_dictSet_other m "tags" k _ h

theorem erfUuid_contains (m : List (String × PyVal)) (u : String) :
    dictContains (erfUuid m u) "doc_uuid" = true := by
  unfold erfUuid
  by_cases h : (!dictContains m "doc_uuid" ||
      !optTruthy (dictGet m "doc_uuid")) = true
  · rw [if_pos h]
    show (dictGet (dictSet m "doc_uuid" (PyVal.str u)) "doc_uuid").isSome = true
    rw [dictGet_dictSet_same]
    rfl
  · rw [if_neg h]
    simp only [Bool.or_eq_true, Bool.not_eq_true', not_or] at h
    have := h.1
    simp only [Bool.not_eq_false] at this
    exact this

theorem erfUuid_get_other (m : List (String × PyVal)) (u : String) (k : String)
    (h : ¬k = "doc_uuid") : dictGet (erfUuid m u) k = dictGet m k := by
  unfold erfUuid
  by_cases hc : (!dictContains m "doc_uuid" ||
      !optTruthy (dictGet m "doc_uuid")) = true
  · rw [if_pos hc]
    exact dictGet_dictSet_other m "doc_uuid" k _ h
  · rw [if_neg hc]

theorem erfProject_contains (m : List (String × PyVal)) :
    dictContains (erfProject m) "project_id" = true := by
  unfold erfProject
  by_cases h : (!dictContains m "project_id" ||
      !optTruthy (dictGet m "project_id")) = true
  · rw [if_pos h]
    show (dictGet (dictSet m "project_id" (PyVal.str "my-project"))
      "project_id").isSome = true
    rw [dictGet_dictSet_same]
    rfl
  · rw [if_neg h]
    simp only [Bool.or_eq_true, Bool.not_eq_true', not_or] at h
    have := h.1
    simp only [Bool.not_eq_false] at this
    exact this

theorem erfProject_get_other (m : List (String × PyVal)) (k : String)
    (h : ¬k = "project_id") : dictGet (erfProject m) k = dictGet m k := by
  unfold erfProject
  by_cases hc : (!dictContains m "project_id" ||
      !optTruthy (dictGet m "project_id")) = true
  · rw [if_pos hc]
    exact dictGet_dictSet_other m "project_id" k _ h
  · rw [if_neg hc]

/-- **C10.** The dict returned by `ensure_required_fields` contains the keys
`tags`, `doc_uuid` and `project_id`, and every key of the input other than
those three keeps its original value — no other field is added, removed, or
modified. -/
theorem ensure_required_fields_spec (m : List (String × PyVal))
    (doc_type : Option String) (freshUuid : String) :
    (dictContains (ensure_required_fields m doc_type freshUuid).1 "tags" = true ∧
      dictContains (ensure_required_fields m doc_type freshUuid).1
        "doc_uuid" = true ∧
      dictContains (ensure_required_fields m doc_type freshUuid).1
        "project_id" = true) ∧
    ∀ k, ¬k = "tags" → ¬k = "doc_uuid" → ¬k = "project_id" →
      dictGet (ensure_required_fields m doc_type freshUuid).1 k =
        dictGet m k := by
  constructor
  · refine ⟨?_, ?_, ?_⟩
    · show (dictGet (erfProject (erfUuid (erfTags m) freshUuid))
        "tags").isSome = true
      rw [erfProject_get_other _ _ (by decide),
        erfUuid_get_other _ _ _ (by decide)]
      exact erfTags_contains m
    · show (dictGet (erfProject (erfUuid (erfTags m) freshUuid))
        "doc_uuid").isSome = true
      rw [erfProject_get_other _ _ (by decide)]
      exact erfUuid_contains (erfTags m) freshUuid
    · exact erfProject_contains _
  · intro k h1 h2 h3
    show dictGet (erfProject (erfUuid (erfTags m) freshUuid)) k = dictGet m k
    rw [erfProject_get_other _ _ h3, erfUuid_get_other _ _ _ h2,
      erfTags_get_other _ _ h1]

theorem ensure_required_fields_spec_witness :
    dictGet (ensure_required_fields [("a", PyVal.int 1)] Option.none "u").1
        "a" = dictGet [("a", PyVal.int 1)] "a" :=
  (ensure_required_fields_spec [("a", PyVal.int 1)] Option.none "u").2 "a"
    (by decide) (by decide) (by decide)

/-! ## `ReadabilityScorer.extract_paragraphs` (`docuchango/readability.py`)

The scorer config only reaches `extract_paragraphs` through
`config.min_paragraph_length` (a Python `int`, so modelled as `Int`). -/

/-- Python `" ".join(parts)`. -/
def joinSp (parts : List String) : String := String.intercalate " " parts

/-- Loop state of `extract_paragraphs`: collected paragraphs, the current
paragraph lines, its start line, and the code-block/frontmatter trackers. -/
structure EPState where
  paragraphs : List (String × Nat)
  current : List String
  curStart : Nat
  inCode : Bool
  inFM : Bool
  fmCount : Nat
deriving Repr

/-- Flush the current paragraph (each flush site in the Python loop is
guarded by `if current_paragraph:`): join with spaces, strip, keep when at
least `min_paragraph_length` characters, and clear. -/
def flushCurrent (minLen : Int) (st : EPState) : EPState :=
  if st.current.isEmpty then st
  else
    if minLen ≤ ((strip (joinSp st.current)).length : Int) then
      { st with
        paragraphs :=
          st.paragraphs ++ [(strip (joinSp st.current), st.curStart)],
        current := [] }
    else { st with current := [] }

/-- Skip-line test of the loop: headings, list items, blockquotes, HTML/MDX
tags, HTML comments, empty lines. -/
def isSkipLine (stripped : String) : Bool :=
  startsWithStr stripped "#" || startsWithStr stripped "-" ||
  startsWithStr stripped "*" || startsWithStr stripped "+" ||
  startsWithStr stripped ">" || startsWithStr stripped "<" ||
  startsWithStr stripped "<!--" || stripped = ""

/-- Loop body from the `if in_frontmatter:` check down: code-block toggle
(flushing on entry), skipping lines inside code blocks, flushing on skip
lines, otherwise growing the current paragraph (recording its start line
when it begins). -/
def epBody (minLen : Int) (st : EPState) (i : Nat) (stripped : String) :
    EPState :=
  if st.inFM then st
  else if startsWithStr stripped "```" then
    if st.inCode then { st with inCode := false }
    else { flushCurrent minLen st with inCode := true }
  else if st.inCode then st
  else if isSkipLine stripped then flushCurrent minLen st
  else if st.current.isEmpty then
    { st with curStart := i, current := st.current ++ [stripped] }
  else { st with current := st.current ++ [stripped] }

/-- One line of the loop (`for i, line in enumerate(lines, start=1)`):
frontmatter tracking first (any `---` line increments the counter; the first
two such lines toggle frontmatter and are consumed), then the body. -/
def epLine (minLen : Int) (st : EPState) (i : Nat) (line : String) : EPState :=
  if strip line = "---" then
    if st.fmCount + 1 ≤ 2 then
      { st with fmCount := st.fmCount + 1, inFM := st.fmCount + 1 == 1 }
    else epBody minLen { st with fmCount := st.fmCount + 1 } i (strip line)
  else epBody minLen st i (strip line)

/-- The whole loop over the indexed line sequence. -/
def epRun (minLen : Int) : EPState → Nat → List String → EPState
  | st, _, [] => st
  | st, i, l :: ls => epRun minLen (epLine minLen st i l) (i + 1) ls

/-- `ReadabilityScorer.extract_paragraphs(markdown_content)`: the list of
`(paragraph_text, line_number)` pairs (loop, then final flush). -/
def extract_paragraphs (minLen : Int) (markdown_content : String) :
    List (String × Nat) :=
  (flushCurrent minLen
    (epRun minLen ⟨[], [], 0, false, false, 0⟩ 1
      (splitLines markdown_content))).paragraphs

/-- Invariant of the paragraph-extraction loop before consuming line `i`:
collected paragraphs are long enough and anchored at earlier real lines, and
a non-empty current paragraph started at an earlier real line. -/
def EPInv (minLen : Int) (i : Nat) (st : EPState) : Prop :=
  (∀ p ∈ st.paragraphs,
      minLen ≤ ((p.1.length : Int)) ∧ 1 ≤ p.2 ∧ p.2 < i) ∧
  (¬st.current = [] → 1 ≤ st.curStart ∧ st.curStart < i)

theorem EPInv_mono (minLen : Int) (i j : Nat) (st : EPState)
    (h : EPInv minLen i st) (hij : i ≤ j) : EPInv minLen j st := by
  refine ⟨fun p hp => ?_, fun hc => ?_⟩
  · obtain ⟨h1, h2, h3⟩ := h.1 p hp
    exact ⟨h1, h2, Nat.lt_of_lt_of_le h3 hij⟩
  · obtain ⟨h1, h2⟩ := h.2 hc
    exact ⟨h1, Nat.lt_of_lt_of_le h2 hij⟩

theorem EPInv_flush (minLen : Int) (i : Nat) (st : EPState)
    (h : EPInv minLen i st) : EPInv minLen i (flushCurrent minLen st) := by
  unfold flushCurrent
  split
  · exact h
  · rename_i hne
    have hcur : ¬st.current = [] := by
      intro hc
      rw [hc] at hne
      simp at hne
    split
    · rename_i hlen
      refine ⟨fun p hp => ?_, fun hc => ?_⟩
      · rcases List.mem_append.mp hp with hp | hp
        · exact h.1 p hp
        · simp only [List.mem_singleton] at hp
          subst hp
          exact ⟨hlen, (h.2 hcur).1, (h.2 hcur).2⟩
      · simp at hc
    · refine ⟨h.1, fun hc => ?_⟩
      simp at hc

theorem EPInv_epBody (minLen : Int) (i : Nat) (st : EPState)
    (stripped : String) (h : EPInv minLen i st) (hi : 1 ≤ i) :
    EPInv minLen (i + 1) (epBody minLen st i stripped) := by
  have hmono : EPInv minLen (i + 1) st := EPInv_mono minLen i (i + 1) st h (Nat.le_succ i)
  unfold epBody
  split
  · exact hmono
  · split
    · split
      · exact ⟨hmono.1, hmono.2⟩
      · have hf := EPInv_flush minLen (i + 1) st hmono
        exact ⟨hf.1, hf.2⟩
    · split
      · exact hmono
      · split
        · exact EPInv_flush minLen (i + 1) st hmono
        · split
          · refine ⟨hmono.1, fun hc => ?_⟩
            exact ⟨hi, Nat.lt_succ_of_le (Nat.le_refl i)⟩
          · refine ⟨hmono.1, fun hc => ?_⟩
            rename_i hne
            have hcur : ¬st.current = [] := by
              intro hc2
              rw [hc2] at hne
              simp at hne
            exact hmono.2 hcur

theorem EPInv_epLine (minLen : Int) (i : Nat) (st : EPState) (line : String)
    (h : EPInv minLen i st) (hi : 1 ≤ i) :
    EPInv minLen (i + 1) (epLine minLen st i line) := by
  have hmono : EPInv minLen (i + 1) st := EPInv_mono minLen i (i + 1) st h (Nat.le_succ i)
  unfold epLine
  split
  · split
    · exact ⟨hmono.1, hmono.2⟩
    · exact EPInv_epBody minLen i _ _ ⟨h.1, h.2⟩ hi
  · exact EPInv_epBody minLen i st _ h hi

theorem EPInv_epRun (minLen : Int) (ls : List String) :
    ∀ (st : EPState) (i : Nat), EPInv minLen i st → 1 ≤ i →
      EPInv minLen (i + ls.length) (epRun minLen st i ls) := by
  induction ls with
  | nil => intro st i h _; simpa using h
  | cons l ls ih =>
    intro st i h hi
    have hstep := EPInv_epLine minLen i st l h hi
    have := ih (epLine minLen st i l) (i + 1) hstep (Nat.le_succ_of_le hi)
    simpa [Nat.add_comm, Nat.add_assoc, Nat.add_left_comm] using this

/-- **C8.** Every `(text, n)` pair returned by `extract_paragraphs`
satisfies `len(text) >= config.min_paragraph_length` and
`1 <= n <= ` the number of newline-delimited lines of the input. -/
theorem extract_paragraphs_spec (minLen : Int) (markdown_content : String) :
    ∀ p ∈ extract_paragraphs minLen markdown_content,
      minLen ≤ ((p.1.length : Int)) ∧ 1 ≤ p.2 ∧
        p.2 ≤ (splitLines markdown_content).length := by
  intro p hp
  have h0 : EPInv minLen 1 (⟨[], [], 0, false, false, 0⟩ : EPState) := by
    refine ⟨fun p hp => ?_, fun hc => ?_⟩
    · simp at hp
    · simp at hc
  have hrun := EPInv_epRun minLen (splitLines markdown_content)
    ⟨[], [], 0, false, false, 0⟩ 1 h0 (Nat.le_refl 1)
  have hfinal := EPInv_flush minLen (1 + (splitLines markdown_content).length)
    _ hrun
  have hgood := hfinal.1 p hp
  exact ⟨hgood.1, hgood.2.1, by omega⟩

theorem extract_paragraphs_spec_witness :
    (1 : Int) ≤ ((("hello", 1) : String × Nat).1.length : Int) ∧
      1 ≤ (("hello", 1) : String × Nat).2 ∧
      (("hello", 1) : String × Nat).2 ≤ (splitLines "hello").length :=
  extract_paragraphs_spec 1 "hello" ("hello", 1) (by decide)

end Docuchango
